import Mathlib

/-!
# Verification of `node-common` against its specification

Shallow embedding of the repository's cancellation core (modelled from the
spec, since only its test file ships under `src/`), of the `Path` class
(`src/unnamed/part_003`) and of the `cache` decorator's `hashArgs`
(`src/unnamed/part_001`), together with theorems settling the frozen claims.
-/

namespace NodeCommon

/-! ## Cancellation core (modelled from the spec)

The module `src/cancellation` is not present under `src/` — only its test
file is.  The following state machine is therefore modelled from the spec:
a `World` holds every live Signal keyed by a numeric id, a log of fired
observer callbacks (callback id paired with the reason it was fired with),
a fresh-id counter and a logical clock.  All operations are synchronous and
run to completion, matching the spec's single-threaded cooperative model. -/

/-- Modelled from the spec (§3 Data Model, "Signal"): the state of one
cancellation signal.  Registrations are (registration id, callback id)
pairs in insertion order; children and parent are signal ids. -/
structure SignalState where
  canBeCancelled : Bool
  isCancellationRequested : Bool
  reason : Option String
  cancellationTime : Option Nat
  registrations : List (Nat × Nat)
  children : List Nat
  parent : Option Nat
deriving Repr, DecidableEq

/-- Modelled from the spec (§5): the single-threaded world — all signals,
the ordered log of observer invocations, a fresh-id source and the clock. -/
structure World where
  signals : List (Nat × SignalState)
  firedLog : List (Nat × Option String)
  nextId : Nat
  now : Nat
deriving Repr, DecidableEq

def World.getSignal (w : World) (sid : Nat) : Option SignalState :=
  (w.signals.find? (fun e => e.1 = sid)).map (fun e => e.2)

def World.setSignal (w : World) (sid : Nat) (s : SignalState) : World :=
  { w with signals := w.signals.map (fun e => if e.1 = sid then (sid, s) else e) }

/-- Modelled from the spec (§3): a freshly constructed cancellable signal. -/
def freshSignalState (parent : Option Nat) : SignalState :=
  { canBeCancelled := true
    isCancellationRequested := false
    reason := none
    cancellationTime := none
    registrations := []
    children := []
    parent := parent }

/-- Modelled from the spec (§3): the "never cancellable" singleton state. -/
def noneSignalState : SignalState :=
  { canBeCancelled := false
    isCancellationRequested := false
    reason := none
    cancellationTime := none
    registrations := []
    children := []
    parent := none }

/-- Modelled from the spec (§3): the "already cancelled" singleton state —
reads true from construction and holds no registrations. -/
def cancelledSignalState : SignalState :=
  { canBeCancelled := true
    isCancellationRequested := true
    reason := none
    cancellationTime := none
    registrations := []
    children := []
    parent := none }

/-- Modelled from the spec (§4.1 `cancel`): if already requested or not
cancellable, no-op; otherwise set the requested flag, capture reason and
time, fire every still-registered observer in registration order, clear
the registrations, remove this signal from its parent's children set
(spec §4.1: a child independently cancelled removes itself from the
parent), then cancel each tracked child with reason
`"Parent token cancelled"` and clear the children set.  `fuel` bounds the
parent→child propagation depth. -/
def cancelCore : Nat → World → Nat → Option String → World
  | 0, w, _, _ => w
  | fuel + 1, w, sid, r =>
    match w.getSignal sid with
    | none => w
    | some s =>
      if s.isCancellationRequested || !s.canBeCancelled then w
      else
        let s' : SignalState :=
          { s with isCancellationRequested := true
                   reason := r
                   cancellationTime := some w.now
                   registrations := []
                   children := [] }
        let w1 : World :=
          { w.setSignal sid s' with
              firedLog := w.firedLog ++ s.registrations.map (fun rg => (rg.2, r)) }
        let w2 : World :=
          match s.parent with
          | none => w1
          | some pid =>
            match w1.getSignal pid with
            | none => w1
            | some p =>
              w1.setSignal pid { p with children := p.children.filter (fun c => c ≠ sid) }
        s.children.foldl (fun acc cid => cancelCore fuel acc cid (some "Parent token cancelled")) w2

/-- Modelled from the spec (§4.1 `register`): on an uncancelled signal,
append the observer and hand back its registration id; on an already
cancelled signal, invoke the callback immediately with the captured
reason, retain nothing and return an inert (`none`) registration. -/
def registerCb (w : World) (sid cbId : Nat) : World × Option Nat :=
  match w.getSignal sid with
  | none => (w, none)
  | some s =>
    if s.isCancellationRequested then
      ({ w with firedLog := w.firedLog ++ [(cbId, s.reason)] }, none)
    else
      let rid := w.nextId
      (World.setSignal { w with nextId := w.nextId + 1 } sid
        { s with registrations := s.registrations ++ [(rid, cbId)] }, some rid)

/-- Modelled from the spec (§3 "Registration"): `unregister()` removes the
callback if not yet fired; on an inert registration or an absent id it is
a no-op. -/
def unregisterReg (w : World) (sid : Nat) (reg : Option Nat) : World :=
  match reg with
  | none => w
  | some rid =>
    match w.getSignal sid with
    | none => w
    | some s =>
      w.setSignal sid { s with registrations := s.registrations.filter (fun rg => rg.1 ≠ rid) }

/-- Modelled from the spec (§4.1 `createLinkedToken`): allocate a child
signal holding a non-owning reference to its parent and record it in the
parent's children set. -/
def createLinkedToken (w : World) (pid : Nat) : World × Nat :=
  let sid := w.nextId
  let w1 : World :=
    { w with nextId := w.nextId + 1
             signals := w.signals ++ [(sid, freshSignalState (some pid))] }
  match w1.getSignal pid with
  | none => (w1, sid)
  | some p => (w1.setSignal pid { p with children := p.children ++ [sid] }, sid)

/-- Number of fired-log entries attributed to callback `cb`. -/
def firedCount (log : List (Nat × Option String)) (cb : Nat) : Nat :=
  (log.filter (fun e => e.1 = cb)).length

/-! ### Worlds used by the claim theorems -/

/-- A world holding a single standalone cancellable signal with observer
list `regs`. -/
def soloWorld (regs : List (Nat × Nat)) (log : List (Nat × Option String))
    (nid now : Nat) : World :=
  { signals := [(0, { freshSignalState none with registrations := regs })]
    firedLog := log
    nextId := nid
    now := now }

/-- If a signal is already cancelled, `cancel` is a no-op for any fuel and
any reason. -/
theorem cancelCore_of_cancelled (fuel : Nat) (w : World) (sid : Nat) (r : Option String)
    (s : SignalState) (hs : w.getSignal sid = some s)
    (hc : s.isCancellationRequested = true) :
    cancelCore fuel w sid r = w := by
  cases fuel with
  | zero => rfl
  | succ n =>
    simp only [cancelCore, hs, hc]
    rfl

/-- C1: first `cancel` on a fresh standalone signal sets the requested
flag, reason and time, clears and fires its observers in one pass; every
later `cancel`, with any reason, is a no-op. -/
theorem cancel_first_sets_then_noop
    (regs : List (Nat × Nat)) (log : List (Nat × Option String))
    (nid now : Nat) (r1 : Option String) (rs : List (Option String)) (fuel fuel2 : Nat) :
    (cancelCore (fuel + 1) (soloWorld regs log nid now) 0 r1 =
      { signals := [(0, { canBeCancelled := true, isCancellationRequested := true,
                          reason := r1, cancellationTime := some now,
                          registrations := [], children := [], parent := none })]
        firedLog := log ++ regs.map (fun rg => (rg.2, r1))
        nextId := nid
        now := now }) ∧
    (rs.foldl (fun acc r => cancelCore fuel2 acc 0 r)
        (cancelCore (fuel + 1) (soloWorld regs log nid now) 0 r1) =
      cancelCore (fuel + 1) (soloWorld regs log nid now) 0 r1) := by
  have h1 : cancelCore (fuel + 1) (soloWorld regs log nid now) 0 r1 =
      { signals := [(0, { canBeCancelled := true, isCancellationRequested := true,
                          reason := r1, cancellationTime := some now,
                          registrations := [], children := [], parent := none })]
        firedLog := log ++ regs.map (fun rg => (rg.2, r1))
        nextId := nid
        now := now } := by
    simp [cancelCore, soloWorld, freshSignalState, World.getSignal, World.setSignal,
      List.find?]
  refine ⟨h1, ?_⟩
  rw [h1]
  induction rs with
  | nil => rfl
  | cons r rs ih =>
    simp only [List.foldl_cons]
    rw [cancelCore_of_cancelled fuel2 _ 0 r
      { canBeCancelled := true, isCancellationRequested := true, reason := r1,
        cancellationTime := some now, registrations := [], children := [], parent := none }
      (by simp [World.getSignal, List.find?]) rfl]
    exact ih

/-- A world holding a single standalone cancellable parent signal with
observer list `prs`, from which a linked child will be created. -/
def parentWorld (prs : List (Nat × Nat)) (log : List (Nat × Option String))
    (now : Nat) : World :=
  { signals := [(0, { freshSignalState none with registrations := prs })]
    firedLog := log
    nextId := 1
    now := now }

/-- C2: after `createLinkedToken`, cancelling the parent cancels the child
with reason `"Parent token cancelled"`, while cancelling the child leaves
the parent uncancelled and empties the parent's tracked-children set. -/
theorem linked_token_propagation
    (prs : List (Nat × Nat)) (log : List (Nat × Option String))
    (now : Nat) (r : Option String) :
    ((createLinkedToken (parentWorld prs log now) 0).2 = 1) ∧
    (cancelCore 2 (createLinkedToken (parentWorld prs log now) 0).1 0 r =
      { signals :=
          [(0, { canBeCancelled := true, isCancellationRequested := true,
                 reason := r, cancellationTime := some now,
                 registrations := [], children := [], parent := none }),
           (1, { canBeCancelled := true, isCancellationRequested := true,
                 reason := some "Parent token cancelled", cancellationTime := some now,
                 registrations := [], children := [], parent := some 0 })]
        firedLog := log ++ prs.map (fun rg => (rg.2, r))
        nextId := 2
        now := now }) ∧
    (cancelCore 1 (createLinkedToken (parentWorld prs log now) 0).1 1 r =
      { signals :=
          [(0, { canBeCancelled := true, isCancellationRequested := false,
                 reason := none, cancellationTime := none,
                 registrations := prs, children := [], parent := none }),
           (1, { canBeCancelled := true, isCancellationRequested := true,
                 reason := r, cancellationTime := some now,
                 registrations := [], children := [], parent := some 0 })]
        firedLog := log
        nextId := 2
        now := now }) := by
  refine ⟨rfl, ?_, ?_⟩ <;>
    simp [createLinkedToken, parentWorld, cancelCore, freshSignalState,
      World.getSignal, World.setSignal, List.find?, List.filter]

/-- A world holding a single already-cancelled signal (the state of the
pre-cancelled singleton, with a generic captured reason and time). -/
def cancelledWorld (rsn : Option String) (tm : Option Nat)
    (log : List (Nat × Option String)) (nid now : Nat) : World :=
  { signals := [(0, { canBeCancelled := true, isCancellationRequested := true,
                      reason := rsn, cancellationTime := tm,
                      registrations := [], children := [], parent := none })]
    firedLog := log
    nextId := nid
    now := now }

/-- C6: registering on an already-cancelled signal fires the callback
immediately with the captured reason, retains no registration (the signal
keeps zero registrations), and returns an inert registration whose
`unregister` is a no-op; the pre-cancelled singleton state holds no
registrations. -/
theorem register_on_cancelled_fires_immediately
    (rsn : Option String) (tm : Option Nat) (log : List (Nat × Option String))
    (nid now cb : Nat) :
    (registerCb (cancelledWorld rsn tm log nid now) 0 cb =
      ({ cancelledWorld rsn tm log nid now with firedLog := log ++ [(cb, rsn)] },
        none)) ∧
    (unregisterReg
        { cancelledWorld rsn tm log nid now with firedLog := log ++ [(cb, rsn)] }
        0 none =
      { cancelledWorld rsn tm log nid now with firedLog := log ++ [(cb, rsn)] }) ∧
    cancelledSignalState.isCancellationRequested = true ∧
    cancelledSignalState.registrations = [] := by
  refine ⟨?_, rfl, rfl, rfl⟩
  simp [registerCb, cancelledWorld, World.getSignal, List.find?]

/-- A world holding the "never cancellable" singleton. -/
def noneWorld (log : List (Nat × Option String)) (nid now : Nat) : World :=
  { signals := [(0, noneSignalState)]
    firedLog := log
    nextId := nid
    now := now }

/-- C7: `cancel` on the never-cancellable singleton is a no-op for any
reason (its requested flag stays false and its reason stays `none`), the
singleton is the only signal with `canBeCancelled = false`: every freshly
constructed signal and the pre-cancelled singleton are cancellable. -/
theorem none_singleton_immutable
    (log : List (Nat × Option String)) (nid now fuel : Nat) (r : Option String)
    (p : Option Nat) :
    (cancelCore fuel (noneWorld log nid now) 0 r = noneWorld log nid now) ∧
    noneSignalState.canBeCancelled = false ∧
    noneSignalState.isCancellationRequested = false ∧
    noneSignalState.reason = none ∧
    (freshSignalState p).canBeCancelled = true ∧
    cancelledSignalState.canBeCancelled = true := by
  refine ⟨?_, rfl, rfl, rfl, rfl, rfl⟩
  cases fuel with
  | zero => rfl
  | succ n =>
    simp [cancelCore, noneWorld, noneSignalState, World.getSignal, List.find?]

/-- A world holding one cancellable signal that already has a single
registered observer `(3, c0)`; fresh ids start at `5`. -/
def c5Base (c0 : Nat) (log : List (Nat × Option String)) (now : Nat) : World :=
  { signals := [(0, { freshSignalState none with registrations := [(3, c0)] })]
    firedLog := log
    nextId := 5
    now := now }

/-- The world `c5Base` after additionally registering callback `cb` (registration
id `5`). -/
def c5After (c0 cb : Nat) (log : List (Nat × Option String)) (now : Nat) : World :=
  { signals := [(0, { freshSignalState none with registrations := [(3, c0), (5, cb)] })]
    firedLog := log
    nextId := 6
    now := now }

/-- The world `c5After` with the new registration unregistered again. -/
def c5Unreg (c0 : Nat) (log : List (Nat × Option String)) (now : Nat) : World :=
  { signals := [(0, { freshSignalState none with registrations := [(3, c0)] })]
    firedLog := log
    nextId := 6
    now := now }

/-- The cancelled end state of the `c5` signal. -/
def c5CancelledState (r : Option String) (now : Nat) : SignalState :=
  { canBeCancelled := true, isCancellationRequested := true,
    reason := r, cancellationTime := some now,
    registrations := [], children := [], parent := none }

/-- C5: a registration's callback fires at most once.  Registering yields
registration id 5; unregistering before cancellation removes it so the
cancel pass fires only the other observer (zero fires for it);
unregistering twice is a no-op; without unregistration the cancel pass
fires it exactly once (in registration order), a second cancel changes
nothing, and unregistering after the firing pass is a no-op. -/
theorem registration_fires_at_most_once
    (c0 cb : Nat) (log : List (Nat × Option String)) (now fuel : Nat)
    (r r2 : Option String) :
    (registerCb (c5Base c0 log now) 0 cb = (c5After c0 cb log now, some 5)) ∧
    (unregisterReg (c5After c0 cb log now) 0 (some 5) = c5Unreg c0 log now) ∧
    (unregisterReg (c5Unreg c0 log now) 0 (some 5) = c5Unreg c0 log now) ∧
    (cancelCore 1 (c5Unreg c0 log now) 0 r =
      { signals := [(0, c5CancelledState r now)]
        firedLog := log ++ [(c0, r)], nextId := 6, now := now }) ∧
    (cancelCore 1 (c5After c0 cb log now) 0 r =
      { signals := [(0, c5CancelledState r now)]
        firedLog := log ++ [(c0, r), (cb, r)], nextId := 6, now := now }) ∧
    (cancelCore fuel
        { signals := [(0, c5CancelledState r now)]
          firedLog := log ++ [(c0, r), (cb, r)], nextId := 6, now := now } 0 r2 =
      { signals := [(0, c5CancelledState r now)]
        firedLog := log ++ [(c0, r), (cb, r)], nextId := 6, now := now }) ∧
    (unregisterReg
        { signals := [(0, c5CancelledState r now)]
          firedLog := log ++ [(c0, r), (cb, r)], nextId := 6, now := now } 0 (some 5) =
      { signals := [(0, c5CancelledState r now)]
        firedLog := log ++ [(c0, r), (cb, r)], nextId := 6, now := now }) := by
  refine ⟨?_, ?_, ?_, ?_, ?_, ?_, ?_⟩
  · simp [registerCb, c5Base, c5After, freshSignalState, World.getSignal,
      World.setSignal, List.find?]
  · simp [unregisterReg, c5After, c5Unreg, freshSignalState, World.getSignal,
      World.setSignal, List.find?, List.filter]
  · simp [unregisterReg, c5Unreg, freshSignalState, World.getSignal,
      World.setSignal, List.find?, List.filter]
  · simp [cancelCore, c5Unreg, c5CancelledState, freshSignalState,
      World.getSignal, World.setSignal, List.find?]
  · simp [cancelCore, c5After, c5CancelledState, freshSignalState,
      World.getSignal, World.setSignal, List.find?]
  · exact cancelCore_of_cancelled fuel _ 0 r2 (c5CancelledState r now)
      (by simp [World.getSignal, List.find?]) rfl
  · simp [unregisterReg, c5CancelledState, World.getSignal, World.setSignal,
      List.find?, List.filter]

/-! ### Suspension points: `race` and `delay` (modelled from the spec)

Settlement is modelled by logical turn numbers of the single-threaded event
queue: an awaitable settles at a turn, a signal's cancellation (if any)
happens at a turn, and whichever turn comes first determines the outcome. -/

/-- Outcome of an awaited operation: the awaitable's value, the
awaitable's own failure, or rejection with `OperationCancelled` carrying
the signal's reason. -/
inductive Outcome (V : Type) where
  | value (v : V)
  | failure (e : String)
  | cancelled (reason : Option String)
deriving Repr

/-- An awaitable: the turn at which it settles and what it settles with. -/
structure Awaitable (V : Type) where
  settleTime : Nat
  result : Except String V
deriving Repr

/-- Modelled from the spec (§4.1 `race`): settle with whichever comes
first between the awaitable's settlement and the signal's cancellation;
on cancellation first, reject with `OperationCancelled` carrying the
reason.  `cancelAt = none` means the signal is never cancelled. -/
def raceResult {V : Type} (cancelAt : Option Nat) (cancelReason : Option String)
    (a : Awaitable V) : Outcome V :=
  let own : Outcome V :=
    match a.result with
    | .ok v => .value v
    | .error e => .failure e
  match cancelAt with
  | none => own
  | some t => if a.settleTime ≤ t then own else .cancelled cancelReason

/-- C3: `race` settles with the awaitable's outcome (value or failure)
when the awaitable settles before the signal is cancelled (or the signal
never is), rejects with `OperationCancelled` when cancellation comes
first, and — being a single settlement — never yields both outcomes. -/
theorem race_first_settlement_wins {V : Type} (cancelAt : Option Nat)
    (cancelReason : Option String) (a : Awaitable V) :
    ((cancelAt = none ∨ ∃ t, cancelAt = some t ∧ a.settleTime < t) →
      raceResult cancelAt cancelReason a =
        (match a.result with
         | .ok v => Outcome.value v
         | .error e => Outcome.failure e)) ∧
    (∀ t, cancelAt = some t → t < a.settleTime →
      raceResult cancelAt cancelReason a = Outcome.cancelled cancelReason) ∧
    (∀ v rsn, ¬(raceResult cancelAt cancelReason a = Outcome.value v ∧
      raceResult cancelAt cancelReason a = Outcome.cancelled rsn)) := by
  refine ⟨?_, ?_, ?_⟩
  · rintro (h | ⟨t, ht, hlt⟩)
    · simp [raceResult, h]
    · simp [raceResult, ht, Nat.le_of_lt hlt]
  · intro t ht hlt
    simp [raceResult, ht, Nat.not_le.mpr hlt]
  · rintro v rsn ⟨h1, h2⟩
    rw [h1] at h2
    exact Outcome.noConfusion h2

/-- Closed witness for `race_first_settlement_wins` at concrete inputs. -/
theorem race_first_settlement_wins_witness :
    raceResult (some 5) (some "stop") (⟨3, .ok 42⟩ : Awaitable Nat) =
        Outcome.value 42 ∧
    raceResult (some 2) (some "stop") (⟨3, .ok 42⟩ : Awaitable Nat) =
        Outcome.cancelled (some "stop") := by
  constructor
  · exact (race_first_settlement_wins (some 5) (some "stop") ⟨3, .ok 42⟩).1
      (Or.inr ⟨5, rfl, by decide⟩)
  · exact (race_first_settlement_wins (some 2) (some "stop") ⟨3, .ok 42⟩).2.1
      2 rfl (by decide)

/-- Result of a `delay(ms)` call: its settlement and how many timers
remain armed afterwards. -/
structure DelayResult where
  outcome : Except (Option String) Unit
  timersArmed : Nat
deriving Repr

/-- Modelled from the spec (§4.1 `delay`): arm one timer due at
`startAt + ms`; if the signal is cancelled strictly before the timer is
due, clear the timer (releasing it) and reject with `OperationCancelled`
carrying the reason; otherwise the timer fires and the call resolves.
Either settlement path disarms the timer. -/
def delayRun (ms startAt : Nat) (cancelAt : Option Nat)
    (cancelReason : Option String) : DelayResult :=
  let armed : Nat := 1
  match cancelAt with
  | some t =>
    if t < startAt + ms then
      { outcome := .error cancelReason, timersArmed := armed - 1 }
    else
      { outcome := .ok (), timersArmed := armed - 1 }
  | none => { outcome := .ok (), timersArmed := armed - 1 }

/-- C4: `delay(ms)` rejects with `OperationCancelled` and leaves no timer
armed when the signal is cancelled before the `ms` elapse; otherwise it
resolves normally (also releasing its timer). -/
theorem delay_cancellation_releases_timer (ms startAt : Nat)
    (cancelAt : Option Nat) (cancelReason : Option String) :
    (∀ t, cancelAt = some t → t < startAt + ms →
      delayRun ms startAt cancelAt cancelReason =
        { outcome := .error cancelReason, timersArmed := 0 }) ∧
    (∀ t, cancelAt = some t → ¬t < startAt + ms →
      delayRun ms startAt cancelAt cancelReason =
        { outcome := .ok (), timersArmed := 0 }) ∧
    (cancelAt = none →
      delayRun ms startAt cancelAt cancelReason =
        { outcome := .ok (), timersArmed := 0 }) := by
  refine ⟨?_, ?_, ?_⟩
  · intro t ht hlt
    simp [delayRun, ht, hlt]
  · intro t ht hlt
    simp [delayRun, ht, hlt]
  · intro h
    simp [delayRun, h]

/-- Closed witness for `delay_cancellation_releases_timer` at concrete
inputs. -/
theorem delay_cancellation_releases_timer_witness :
    delayRun 10000 0 (some 3) (some "stop") =
        { outcome := .error (some "stop"), timersArmed := 0 } ∧
    delayRun 100 0 none none = { outcome := .ok (), timersArmed := 0 } := by
  constructor
  · exact (delay_cancellation_releases_timer 10000 0 (some 3) (some "stop")).1
      3 rfl (by decide)
  · exact (delay_cancellation_releases_timer 100 0 none none).2.2 rfl

/-! ## `Path` (src/unnamed/part_003)

The class stores one private string `#path`; strings are embedded as
`List Char` (code points).  `node:path` is modelled in its posix flavour. -/

/-- Helper for `node:path` posix `basename`: remove the trailing run of
separators. -/
def dropTrailingSlashes (l : List Char) : List Char :=
  (l.reverse.dropWhile (fun c => c = '/')).reverse

/-- Helper for `node:path` posix `basename`: the part after the last
separator. -/
def afterLastSlash (l : List Char) : List Char :=
  (l.reverse.takeWhile (fun c => c ≠ '/')).reverse

/-- Node `path.basename(path)` (posix, no extension argument) (no extension argument): trailing
separators are ignored, then the final component is returned. -/
def basename (l : List Char) : List Char :=
  afterLastSlash (dropTrailingSlashes l)

/-- Index (from the left) of the last occurrence of `c`, if any. -/
def lastIdxOf (c : Char) : List Char → Option Nat
  | [] => none
  | x :: xs =>
    match lastIdxOf c xs with
    | some i => some (i + 1)
    | none => if x = c then some 0 else none

/-- Node `path.extname` (posix) restricted to a single component `b` (the
basename): empty when `b` has no dot, when its only dot is its first
character, or when `b` is exactly `".."`; otherwise everything from the
last dot on. -/
def extnameComp (b : List Char) : List Char :=
  if b = ['.', '.'] then []
  else
    match lastIdxOf '.' b with
    | none => []
    | some 0 => []
    | some (i + 1) => b.drop (i + 1)

/-- Node `path.extname(path)` (posix): the extension of the final
component. -/
def extname (l : List Char) : List Char :=
  extnameComp (basename l)

/-- The `Path` class of `src/unnamed/part_003`, reduced to its stored
private string `#path`. -/
structure Path where
  path : List Char
deriving Repr, DecidableEq

/-- Getter `Path.name`: `path.basename(this.#path)`. -/
def Path.name (p : Path) : List Char := basename p.path

/-- Getter `Path.suffix`: `path.extname(this.#path)`. -/
def Path.suffix (p : Path) : List Char := extname p.path

/-- Getter `Path.stem`: `ext ? name.slice(0, -ext.length) : name` — drop the
suffix from the final component when there is one. -/
def Path.stem (p : Path) : List Char :=
  let n := p.name
  let e := p.suffix
  if e = [] then n else n.take (n.length - e.length)

theorem lastIdxOf_lt_length {c : Char} :
    ∀ {l : List Char} {i : Nat}, lastIdxOf c l = some i → i < l.length := by
  intro l
  induction l with
  | nil => intro i h; simp [lastIdxOf] at h
  | cons x xs ih =>
    intro i h
    simp only [lastIdxOf] at h
    cases hx : lastIdxOf c xs with
    | some j =>
      rw [hx] at h
      cases h
      exact Nat.succ_lt_succ (ih hx)
    | none =>
      rw [hx] at h
      by_cases hc : x = c
      · simp only [hc, if_pos rfl] at h
        cases h
        exact Nat.succ_pos _
      · simp [hc] at h

/-- C9: the stem and suffix decompose the final component exactly:
`p.stem ++ p.suffix = p.name` for every `Path` (when there is no
extension the suffix is empty and the stem is the whole name). -/
theorem stem_append_suffix_eq_name (p : Path) :
    p.stem ++ p.suffix = p.name := by
  show (let n := p.name
        let e := p.suffix
        if e = [] then n else n.take (n.length - e.length)) ++ p.suffix = p.name
  simp only [Path.suffix, Path.name, extname]
  by_cases hdd : basename p.path = ['.', '.']
  · simp [extnameComp, hdd]
  · simp only [extnameComp, if_neg hdd]
    cases hidx : lastIdxOf '.' (basename p.path) with
    | none => simp
    | some i =>
      cases i with
      | zero => simp
      | succ j =>
        have hlt : j + 1 < (basename p.path).length := lastIdxOf_lt_length hidx
        have hlen : ((basename p.path).drop (j + 1)).length =
            (basename p.path).length - (j + 1) := List.length_drop _ _
        have hne : (basename p.path).drop (j + 1) ≠ [] := by
          intro hnil
          rw [hnil] at hlen
          simp at hlen
          omega
        simp only [if_neg hne, hlen]
        have harith : (basename p.path).length -
            ((basename p.path).length - (j + 1)) = j + 1 := by omega
        rw [harith, List.take_append_drop]

/-! ### `Path.fromUri` (src/unnamed/part_003, lines 520–525)

`fromUri` first checks the `file://` prefix and then feeds
`decodeURIComponent(uri.slice(7))` to the `Path` constructor, which is
`path.join` of the single segment.  `decodeURIComponent` is modelled after
its ECMA-262 definition: literal characters pass through, `%XX` escapes
are collected and must form valid UTF-8 (malformed escapes throw
`URIError`). -/

/-- Value of one hexadecimal digit character. -/
def hexVal (c : Char) : Option Nat :=
  if '0' ≤ c ∧ c ≤ '9' then some (c.toNat - '0'.toNat)
  else if 'a' ≤ c ∧ c ≤ 'f' then some (c.toNat - 'a'.toNat + 10)
  else if 'A' ≤ c ∧ c ≤ 'F' then some (c.toNat - 'A'.toNat + 10)
  else none

/-- A lexed URI-component item: a literal character or a `%XX` escape
byte. -/
inductive UriTok where
  | lit (c : Char)
  | byte (b : Nat)
deriving Repr, DecidableEq

/-- Lex a URI component: each `%` must be followed by two hex digits
(otherwise `decodeURIComponent` throws `URIError`, modelled as `none`). -/
def uriTokens : List Char → Option (List UriTok)
  | [] => some []
  | '%' :: h1 :: h2 :: rest =>
    match hexVal h1, hexVal h2 with
    | some a, some b => (uriTokens rest).map (fun ts => UriTok.byte (16 * a + b) :: ts)
    | _, _ => none
  | '%' :: _ => none
  | c :: rest => (uriTokens rest).map (fun ts => UriTok.lit c :: ts)

/-- The 6 payload bits of a UTF-8 continuation byte given as a `%XX`
escape; a literal character or an out-of-range byte is a `URIError`. -/
def contVal : UriTok → Option Nat
  | .byte b => if 0x80 ≤ b ∧ b ≤ 0xBF then some (b - 0x80) else none
  | .lit _ => none

/-- UTF-8 decoding of the lexed items, per ECMA-262 `Decode`: ASCII escape
bytes stand alone; a leading byte requires its continuation bytes as
further escapes, and overlong encodings, surrogates, out-of-range code
points and stray continuation or invalid leading bytes all throw. -/
def decodeToks : List UriTok → Option (List Char)
  | [] => some []
  | .lit c :: rest => (decodeToks rest).map (fun cs => c :: cs)
  | .byte b :: rest =>
    if b < 0x80 then (decodeToks rest).map (fun cs => Char.ofNat b :: cs)
    else if 0xC0 ≤ b ∧ b ≤ 0xDF then
      match rest with
      | t1 :: rest' =>
        match contVal t1 with
        | some c1 =>
          if 0x80 ≤ (b - 0xC0) * 0x40 + c1 then
            (decodeToks rest').map (fun cs => Char.ofNat ((b - 0xC0) * 0x40 + c1) :: cs)
          else none
        | none => none
      | [] => none
    else if 0xE0 ≤ b ∧ b ≤ 0xEF then
      match rest with
      | t1 :: t2 :: rest' =>
        match contVal t1, contVal t2 with
        | some c1, some c2 =>
          if 0x800 ≤ (b - 0xE0) * 0x1000 + c1 * 0x40 + c2 ∧
              ¬(0xD800 ≤ (b - 0xE0) * 0x1000 + c1 * 0x40 + c2 ∧
                (b - 0xE0) * 0x1000 + c1 * 0x40 + c2 ≤ 0xDFFF) then
            (decodeToks rest').map
              (fun cs => Char.ofNat ((b - 0xE0) * 0x1000 + c1 * 0x40 + c2) :: cs)
          else none
        | _, _ => none
      | _ => none
    else if 0xF0 ≤ b ∧ b ≤ 0xF7 then
      match rest with
      | t1 :: t2 :: t3 :: rest' =>
        match contVal t1, contVal t2, contVal t3 with
        | some c1, some c2, some c3 =>
          if 0x10000 ≤ (b - 0xF0) * 0x40000 + c1 * 0x1000 + c2 * 0x40 + c3 ∧
              (b - 0xF0) * 0x40000 + c1 * 0x1000 + c2 * 0x40 + c3 ≤ 0x10FFFF then
            (decodeToks rest').map
              (fun cs => Char.ofNat ((b - 0xF0) * 0x40000 + c1 * 0x1000 + c2 * 0x40 + c3) :: cs)
          else none
        | _, _, _ => none
      | _ => none
    else none

/-- JS `decodeURIComponent`, `none` modelling a thrown `URIError`. -/
def decodeURIComponentL (l : List Char) : Option (List Char) :=
  (uriTokens l).bind decodeToks

/-- Split a path string on the posix separator. -/
def splitSlash (l : List Char) : List (List Char) := l.splitOn '/'

/-- Node `path` posix `normalizeString`: resolve `.` and `..` components;
`allowAboveRoot` keeps leading `..`s for relative paths. -/
def normComps (allowAboveRoot : Bool) (comps : List (List Char)) : List (List Char) :=
  comps.foldl (fun acc c =>
    if c = [] ∨ c = ['.'] then acc
    else if c = ['.', '.'] then
      if acc ≠ [] ∧ acc.getLast? ≠ some ['.', '.'] then acc.dropLast
      else if allowAboveRoot then acc ++ [['.', '.']] else acc
    else acc ++ [c]) []

/-- Join components with the posix separator. -/
def joinSlash : List (List Char) → List Char
  | [] => []
  | [c] => c
  | c :: rest => c ++ '/' :: joinSlash rest

/-- Node `path.normalize` (posix). -/
def posixNormalize (l : List Char) : List Char :=
  if l = [] then ['.']
  else
    let isAbs := l.head? = some '/'
    let trailing := l.getLast? = some '/'
    let core := joinSlash (normComps (!isAbs) (splitSlash l))
    if core = [] then
      if isAbs then ['/'] else if trailing then ['.', '/'] else ['.']
    else
      let core' := if trailing then core ++ ['/'] else core
      if isAbs then '/' :: core' else core'

/-- Constructor `new Path(segment)` for one segment: `path.join(segment)`, which is
`'.'` for the empty segment and `normalize(segment)` otherwise. -/
def Path.ofSegment (s : List Char) : Path :=
  ⟨if s = [] then ['.'] else posixNormalize s⟩

/-- Static `Path.fromUri`: throw unless the URI starts with `file://`, then build
a `Path` from `decodeURIComponent(uri.slice(7))` (which itself throws on a
malformed component). -/
def Path.fromUri (uri : List Char) : Except String Path :=
  if "file://".toList.isPrefixOf uri then
    match decodeURIComponentL (uri.drop 7) with
    | some d => .ok (Path.ofSegment d)
    | none => .error "URI malformed"
  else .error "URI must start with file://"

/-- C8 counterexample: `"file://%"` starts with `file://` yet
`Path.fromUri` raises (`decodeURIComponent` throws `URIError` on the
malformed escape), refuting "for every uri that does start with
`file://` it returns a Path … without raising". -/
theorem fromUri_claim_counterexample :
    "file://".toList.isPrefixOf "file://%".toList = true ∧
    Path.fromUri "file://%".toList = .error "URI malformed" := by
  constructor
  · decide
  · rfl

/-- C8 (amended): `Path.fromUri` raises the construction-validation error
for every uri not starting with `file://`; for a uri with the prefix it
returns the `Path` built from the percent-decoded remainder when
`decodeURIComponent` succeeds, and raises a `URIError` when the remainder
is a malformed percent-encoding. -/
theorem fromUri_validation (uri : List Char) :
    ("file://".toList.isPrefixOf uri = false →
      Path.fromUri uri = .error "URI must start with file://") ∧
    (∀ d, "file://".toList.isPrefixOf uri = true →
      decodeURIComponentL (uri.drop 7) = some d →
      Path.fromUri uri = .ok (Path.ofSegment d)) ∧
    ("file://".toList.isPrefixOf uri = true →
      decodeURIComponentL (uri.drop 7) = none →
      Path.fromUri uri = .error "URI malformed") := by
  refine ⟨?_, ?_, ?_⟩ <;> unfold Path.fromUri
  · intro h
    rw [h]
    rfl
  · intro d hp hd
    rw [hp]
    simp [hd]
  · intro hp hd
    rw [hp]
    simp [hd]

/-- Closed witness for `fromUri_validation` at concrete inputs. -/
theorem fromUri_validation_witness :
    Path.fromUri "file://a%20b".toList = .ok (Path.ofSegment "a b".toList) :=
  (fromUri_validation "file://a%20b".toList).2.1 "a b".toList (by decide) (by decide)

/-! ## `hashArgs` and the `cache` decorator (src/unnamed/part_001)

JS argument values are embedded as trees carrying an explicit object
identity on every plain object: distinct heap objects carry distinct
`oid`s and an aliased object (the same reference occurring twice in one
call) appears as two subtrees with the same `oid`.  This makes the
source's `seen` `WeakMap` guard (part_001 lines 45–49) representable: it
fires on every repeated reference, not only on cycles, and `hash` then
returns `\x7b ref: n \x7d` instead of descending again.  JS numbers are
embedded as integers.  Cycles (which in the source can only terminate
through the object branch) are outside the tree embedding; every claim
here concerns acyclic values. -/

/-- A JS argument value as consumed by `hashArgs`.  `oid` is the object's
heap identity; two subtrees with equal `oid` picture the same object
reference occurring twice. -/
inductive JsVal where
  | null
  | undef
  | num (n : Int)
  | str (s : String)
  | bool (b : Bool)
  | fn (name : String)
  | date (iso : String)
  | regexp (src : String)
  | arr (xs : List JsVal)
  | jsmap (entries : List (JsVal × JsVal))
  | jsset (xs : List JsVal)
  | obj (oid : Nat) (fields : List (String × JsVal))

/-- The JSON fragment produced by `hash` and fed to `JSON.stringify`. -/
inductive HVal where
  | null
  | num (n : Int)
  | str (s : String)
  | bool (b : Bool)
  | arr (xs : List HVal)
  | obj (fields : List (String × HVal))

mutual
/-- JS `String(value)` conversion of a hashed value, as used by the
default (comparator-less) `Array.prototype.sort` in the `Set` branch. -/
def jsToString : HVal → String
  | .null => "null"
  | .num n => toString n
  | .str s => s
  | .bool b => if b then "true" else "false"
  | .arr xs => jsJoinComma xs
  | .obj _ => "[object Object]"

/-- JS `Array.prototype.toString` = `join(',')`, where `null` elements
render as the empty string. -/
def jsJoinComma : List HVal → String
  | [] => ""
  | [x] => jsElemString x
  | x :: y :: xs => jsElemString x ++ "," ++ jsJoinComma (y :: xs)

/-- One joined element: `null` renders empty inside `join`. -/
def jsElemString : HVal → String
  | .null => ""
  | .num n => toString n
  | .str s => s
  | .bool b => if b then "true" else "false"
  | .arr xs => jsJoinComma xs
  | .obj _ => "[object Object]"
end

/-- Stable insertion step of a JS sort whose comparator orders by the
string `key` of each element (`(a, b) => (key a < key b ? -1 : 1)`, or
the default string sort): the new element goes after every element it
does not strictly precede. -/
def insertByKey {α : Type} (key : α → String) (x : α) : List α → List α
  | [] => [x]
  | y :: ys => if key x < key y then x :: y :: ys else y :: insertByKey key x ys

/-- Stable sort by the string `key`, processing elements left to right. -/
def sortByKey {α : Type} (key : α → String) (l : List α) : List α :=
  l.foldl (fun acc x => insertByKey key x acc) []

/-- JS `array.sort()` (default comparator, stable): sort hashed set
elements by their string conversion. -/
def sortByStr (l : List HVal) : List HVal :=
  sortByKey jsToString l

/-- Stable sort of raw object entries by key, modelling
`Object.entries(value).sort(([a], [b]) => (a < b ? -1 : 1))`. -/
def sortFields (l : List (String × JsVal)) : List (String × JsVal) :=
  sortByKey Prod.fst l

/-- The same key sort on already-hashed entries. -/
def sortHFields (l : List (String × HVal)) : List (String × HVal) :=
  sortByKey Prod.fst l

theorem insertByKey_perm {α : Type} (key : α → String) (x : α) (l : List α) :
    List.Perm (insertByKey key x l) (x :: l) := by
  induction l with
  | nil => exact List.Perm.refl _
  | cons y ys ih =>
    by_cases h : key x < key y
    · simp [insertByKey, h]
    · simp only [insertByKey, if_neg h]
      exact List.Perm.trans (List.Perm.cons y ih) (List.Perm.swap x y ys)

theorem sortByKey_go_perm {α : Type} (key : α → String) (l acc : List α) :
    List.Perm (l.foldl (fun a x => insertByKey key x a) acc) (acc ++ l) := by
  induction l generalizing acc with
  | nil => simp
  | cons x xs ih =>
    simp only [List.foldl_cons]
    refine List.Perm.trans (ih (insertByKey key x acc)) ?_
    have h1 : List.Perm (insertByKey key x acc ++ xs) ((x :: acc) ++ xs) :=
      (insertByKey_perm key x acc).append_right xs
    refine h1.trans ?_
    simp only [List.cons_append]
    exact List.Perm.symm List.perm_middle

theorem sortByKey_perm {α : Type} (key : α → String) (l : List α) :
    List.Perm (sortByKey key l) l := by
  simpa using sortByKey_go_perm key l []

theorem insertByKey_sorted {α : Type} {key : α → String} {x : α} {l : List α}
    (hx : key x ∉ l.map key) (hl : List.Pairwise (fun a b => key a < key b) l) :
    List.Pairwise (fun a b => key a < key b) (insertByKey key x l) := by
  induction l with
  | nil => simp [insertByKey]
  | cons y ys ih =>
    rw [List.map_cons, List.mem_cons] at hx
    push_neg at hx
    obtain ⟨hxy, hxys⟩ := hx
    rcases List.pairwise_cons.mp hl with ⟨hy, hys⟩
    by_cases h : key x < key y
    · rw [insertByKey, if_pos h]
      refine List.pairwise_cons.mpr ⟨?_, hl⟩
      intro z hz
      rcases List.mem_cons.mp hz with rfl | hz'
      · exact h
      · exact h.trans (hy z hz')
    · rw [insertByKey, if_neg h]
      refine List.pairwise_cons.mpr ⟨?_, ih hxys hys⟩
      intro z hz
      rcases List.mem_cons.mp ((insertByKey_perm key x ys).mem_iff.mp hz) with rfl | hz'
      · exact lt_of_le_of_ne (le_of_not_lt h) (Ne.symm hxy)
      · exact hy z hz'

theorem sortByKey_go_sorted {α : Type} (key : α → String) :
    ∀ (l acc : List α),
    List.Pairwise (fun a b => key a < key b) acc →
    (((acc ++ l).map key).Nodup) →
    List.Pairwise (fun a b => key a < key b)
      (l.foldl (fun a x => insertByKey key x a) acc) := by
  intro l
  induction l with
  | nil =>
    intro acc hs _
    simpa using hs
  | cons x xs ih =>
    intro acc hs hnd
    simp only [List.foldl_cons]
    have hmapnd : ((acc.map key) ++ (key x :: xs.map key)).Nodup := by
      simpa using hnd
    have hxacc : key x ∉ acc.map key := by
      intro hmem
      exact ((List.nodup_append.mp hmapnd).2.2 hmem) (List.mem_cons_self _ _)
    apply ih
    · exact insertByKey_sorted hxacc hs
    · have hperm : ((insertByKey key x acc ++ xs).map key).Perm
          ((acc ++ x :: xs).map key) := by
        apply List.Perm.map
        refine ((insertByKey_perm key x acc).append_right xs).trans ?_
        simp only [List.cons_append]
        exact List.Perm.symm List.perm_middle
      exact hperm.nodup_iff.mpr hnd

theorem sortByKey_eq_of_perm {α : Type} {key : α → String} {l₁ l₂ : List α}
    (hp : List.Perm l₁ l₂) (hnd : (l₁.map key).Nodup) :
    sortByKey key l₁ = sortByKey key l₂ := by
  have hs1 : List.Sorted (fun (a b : α) => key a < key b) (sortByKey key l₁) :=
    sortByKey_go_sorted key l₁ [] List.Pairwise.nil (by simpa using hnd)
  have hs2 : List.Sorted (fun (a b : α) => key a < key b) (sortByKey key l₂) :=
    sortByKey_go_sorted key l₂ [] List.Pairwise.nil
      (by simpa using (hp.map key).nodup_iff.mp hnd)
  exact @List.eq_of_perm_of_sorted _ (fun a b => key a < key b)
    ⟨fun a b h1 h2 => absurd h1 (lt_asymm h2)⟩ _ _
    ((sortByKey_perm key l₁).trans (hp.trans (sortByKey_perm key l₂).symm)) hs1 hs2

theorem insertByKey_map {α β : Type} (keyA : α → String) (keyB : β → String)
    (f : α → β) (hk : ∀ a, keyB (f a) = keyA a) (x : α) (l : List α) :
    insertByKey keyB (f x) (l.map f) = (insertByKey keyA x l).map f := by
  induction l with
  | nil => rfl
  | cons y ys ih =>
    simp only [List.map_cons, insertByKey, hk]
    by_cases h : keyA x < keyA y
    · simp [h]
    · simp [h, ih]

theorem sortByKey_map {α β : Type} (keyA : α → String) (keyB : β → String)
    (f : α → β) (hk : ∀ a, keyB (f a) = keyA a) (l : List α) :
    sortByKey keyB (l.map f) = (sortByKey keyA l).map f := by
  have hgo : ∀ (l acc : List α),
      (l.map f).foldl (fun a x => insertByKey keyB x a) (acc.map f) =
        ((l.foldl (fun a x => insertByKey keyA x a) acc)).map f := by
    intro l
    induction l with
    | nil => intro acc; rfl
    | cons x xs ih =>
      intro acc
      simp only [List.map_cons, List.foldl_cons]
      rw [insertByKey_map keyA keyB f hk, ih]
  simpa using hgo l []

theorem sortFields_sizeOf (l : List (String × JsVal)) :
    sizeOf (sortFields l) = sizeOf l :=
  (sortByKey_perm Prod.fst l).sizeOf_eq_sizeOf

/-- The traversal state of one `hashArgs` call: the `seen` `WeakMap`
(object identity → assigned number, in first-visit order) and the
`counter`. -/
structure HashSt where
  seen : List (Nat × Nat)
  counter : Nat
deriving Repr, DecidableEq

mutual
/-- The inner `hash` of `hashArgs` (src/unnamed/part_001 lines 5–59),
threading the `seen`/`counter` state in JS evaluation order.  A plain
object already in `seen` yields `\x7b ref: n \x7d` without descending;
otherwise it is recorded under the next counter and its entries are
sorted by key and then hashed in sorted order, yielding
`\x7b obj: entries \x7d`. -/
def hashV : JsVal → HashSt → HVal × HashSt
  | .null, st => (.null, st)
  | .undef, st => (.str "undefined", st)
  | .num n, st => (.num n, st)
  | .str s, st => (.str s, st)
  | .bool b, st => (.bool b, st)
  | .fn name, st => (.str ("function:" ++ (if name = "" then "anon" else name)), st)
  | .date iso, st => (.str ("date:" ++ iso), st)
  | .regexp src, st => (.str ("regexp:" ++ src), st)
  | .arr xs, st =>
    let r := hashList xs st
    (.arr r.1, r.2)
  | .jsmap es, st =>
    let r := hashPairs es st
    (.obj [("map", .arr r.1)], r.2)
  | .jsset xs, st =>
    let r := hashList xs st
    (.obj [("set", .arr (sortByStr r.1))], r.2)
  | .obj oid fs, st =>
    match st.seen.find? (fun e => e.1 = oid) with
    | some e => (.obj [("ref", .num e.2)], st)
    | none =>
      let r := hashFieldsSorted (sortFields fs) ⟨st.seen ++ [(oid, st.counter)], st.counter + 1⟩
      (.obj [("obj", .arr r.1)], r.2)
termination_by v _ => sizeOf v
decreasing_by
  all_goals simp_wf
  rw [sortFields_sizeOf]
  omega

/-- Hash of `value.map(hash)` for arrays, threading the state. -/
def hashList : List JsVal → HashSt → List HVal × HashSt
  | [], st => ([], st)
  | x :: xs, st =>
    let r1 := hashV x st
    let r2 := hashList xs r1.2
    (r1.1 :: r2.1, r2.2)
termination_by xs _ => sizeOf xs
decreasing_by
  all_goals simp_wf
  all_goals omega

/-- Hash of `[...value.entries()].map(([k, v]) => [hash(k), hash(v)])`,
threading the state. -/
def hashPairs : List (JsVal × JsVal) → HashSt → List HVal × HashSt
  | [], st => ([], st)
  | (k, v) :: es, st =>
    let rk := hashV k st
    let rv := hashV v rk.2
    let rs := hashPairs es rv.2
    (.arr [rk.1, rv.1] :: rs.1, rs.2)
termination_by es _ => sizeOf es
decreasing_by
  all_goals simp_wf
  all_goals omega

/-- Hash of the already key-sorted object entries,
`.map(([k, v]) => [k, hash(v)])` in list order, threading the state. -/
def hashFieldsSorted : List (String × JsVal) → HashSt → List HVal × HashSt
  | [], st => ([], st)
  | (k, v) :: fs, st =>
    let rv := hashV v st
    let rs := hashFieldsSorted fs rv.2
    (.arr [.str k, rv.1] :: rs.1, rs.2)
termination_by fs _ => sizeOf fs
decreasing_by
  all_goals simp_wf
  all_goals omega
end

/-- Lowercase hexadecimal digit. -/
def hexDigitChar (n : Nat) : Char :=
  if n < 10 then Char.ofNat ('0'.toNat + n) else Char.ofNat ('a'.toNat + n - 10)

/-- Escaping of one string character under `JSON.stringify`. -/
def jsonEscapeChar (c : Char) : String :=
  if c = '"' then "\\\""
  else if c = '\\' then "\\\\"
  else if c = '\x08' then "\\b"
  else if c = '\x09' then "\\t"
  else if c = '\x0a' then "\\n"
  else if c = '\x0c' then "\\f"
  else if c = '\x0d' then "\\r"
  else if c.toNat < 0x20 then
    "\\u00" ++ String.mk [hexDigitChar (c.toNat / 16), hexDigitChar (c.toNat % 16)]
  else String.mk [c]

/-- Escaping of a whole string body under `JSON.stringify`. -/
def jsonEscape (s : String) : String :=
  String.join (s.toList.map jsonEscapeChar)

mutual
/-- JSON serialisation (`JSON.stringify`) on the fragment produced by
`hash`. -/
def stringifyH : HVal → String
  | .null => "null"
  | .num n => toString n
  | .str s => "\"" ++ jsonEscape s ++ "\""
  | .bool b => if b then "true" else "false"
  | .arr xs => "[" ++ stringifyArr xs ++ "]"
  | .obj fs => "\x7b" ++ stringifyObj fs ++ "\x7d"

/-- Comma-joined stringified array elements. -/
def stringifyArr : List HVal → String
  | [] => ""
  | [x] => stringifyH x
  | x :: y :: xs => stringifyH x ++ "," ++ stringifyArr (y :: xs)

/-- Comma-joined stringified object entries. -/
def stringifyObj : List (String × HVal) → String
  | [] => ""
  | [(k, v)] => "\"" ++ jsonEscape k ++ "\":" ++ stringifyH v
  | (k, v) :: f :: fs =>
    "\"" ++ jsonEscape k ++ "\":" ++ stringifyH v ++ "," ++ stringifyObj (f :: fs)
end

/-- The key function `hashArgs(args)` =
`JSON.stringify(args.map(hash))`, run with a fresh `seen` map and a
counter starting at `0`. -/
def hashArgs (args : List JsVal) : String :=
  stringifyH (.arr (hashList args ⟨[], 0⟩).1)

mutual
/-- All plain-object identities of a value in syntactic order; an
argument list is alias-free when these are pairwise distinct. -/
def objIds : JsVal → List Nat
  | .arr xs => objIdsList xs
  | .jsmap es => objIdsPairs es
  | .jsset xs => objIdsList xs
  | .obj oid fs => oid :: objIdsFields fs
  | _ => []

/-- Object identities of a value list. -/
def objIdsList : List JsVal → List Nat
  | [] => []
  | x :: xs => objIds x ++ objIdsList xs

/-- Object identities of a map-entry list. -/
def objIdsPairs : List (JsVal × JsVal) → List Nat
  | [] => []
  | (k, v) :: es => (objIds k ++ objIds v) ++ objIdsPairs es

/-- Object identities of an object-entry list. -/
def objIdsFields : List (String × JsVal) → List Nat
  | [] => []
  | (_, v) :: fs => objIds v ++ objIdsFields fs
end

mutual
/-- The alias-free specialisation of `hash`: on values in which no plain
object occurs twice, the `seen` guard never fires and `hash` is this
pure, state-independent function (proved below as `hashV_aliasFree`).
Its `obj` branch hashes the entries and then sorts by key; this equals
the source's sort-then-hash order because the key comparator never reads
the values. -/
def hashTreeV : JsVal → HVal
  | .null => .null
  | .undef => .str "undefined"
  | .num n => .num n
  | .str s => .str s
  | .bool b => .bool b
  | .fn name => .str ("function:" ++ (if name = "" then "anon" else name))
  | .date iso => .str ("date:" ++ iso)
  | .regexp src => .str ("regexp:" ++ src)
  | .arr xs => .arr (hashTreeList xs)
  | .jsmap es => .obj [("map", .arr (hashTreePairs es))]
  | .jsset xs => .obj [("set", .arr (sortByStr (hashTreeList xs)))]
  | .obj _ fs =>
    .obj [("obj", .arr ((sortHFields (hashTreeFields fs)).map
      (fun kv => HVal.arr [.str kv.1, kv.2])))]

/-- Alias-free hash of array elements. -/
def hashTreeList : List JsVal → List HVal
  | [] => []
  | x :: xs => hashTreeV x :: hashTreeList xs

/-- Alias-free hash of map entries. -/
def hashTreePairs : List (JsVal × JsVal) → List HVal
  | [] => []
  | (k, v) :: es => HVal.arr [hashTreeV k, hashTreeV v] :: hashTreePairs es

/-- Alias-free hash of every object entry's value, keeping its key. -/
def hashTreeFields : List (String × JsVal) → List (String × HVal)
  | [] => []
  | (k, v) :: fs => (k, hashTreeV v) :: hashTreeFields fs
end

/-- One `methodCache` entry: `\x7b value, expiry \x7d`. -/
structure CacheEntry (V : Type) where
  value : V
  expiry : Nat

/-- Lookup (`Map.prototype.get`) on the method cache. -/
def cacheGet {V : Type} (m : List (String × CacheEntry V)) (k : String) :
    Option (CacheEntry V) :=
  (m.find? (fun kv => kv.1 = k)).map (fun kv => kv.2)

/-- Update (`Map.prototype.set`) on the method cache: replace in place or
append. -/
def cacheSet {V : Type} (m : List (String × CacheEntry V)) (k : String)
    (e : CacheEntry V) : List (String × CacheEntry V) :=
  if m.any (fun kv => kv.1 = k) then
    m.map (fun kv => if kv.1 = k then (k, e) else kv)
  else m ++ [(k, e)]

/-- One invocation of the wrapped method from the `cache(ttlMs)`
decorator (src/unnamed/part_001 lines 77–101): on a fresh-enough cached
entry return it without invoking the method; otherwise invoke and store
with expiry `now + ttlMs`.  The returned flag records whether the wrapped
method was invoked. -/
def cacheCall {V : Type} (ttlMs : Nat) (method : List JsVal → V)
    (m : List (String × CacheEntry V)) (now : Nat) (args : List JsVal) :
    V × List (String × CacheEntry V) × Bool :=
  let key := hashArgs args
  match cacheGet m key with
  | some e =>
    if now < e.expiry then (e.value, m, false)
    else (method args, cacheSet m key ⟨method args, now + ttlMs⟩, true)
  | none => (method args, cacheSet m key ⟨method args, now + ttlMs⟩, true)

mutual
/-- Structural (value-based) equality of JS argument values: identical
except that object identities are ignored and the entries of a plain
object may appear in any insertion order (JS object keys are distinct,
so the first object's keys are required to be `Nodup`). -/
inductive StructEq : JsVal → JsVal → Prop
  | null : StructEq .null .null
  | undef : StructEq .undef .undef
  | num (n : Int) : StructEq (.num n) (.num n)
  | str (s : String) : StructEq (.str s) (.str s)
  | bool (b : Bool) : StructEq (.bool b) (.bool b)
  | fn (s : String) : StructEq (.fn s) (.fn s)
  | date (s : String) : StructEq (.date s) (.date s)
  | regexp (s : String) : StructEq (.regexp s) (.regexp s)
  | arr {xs ys : List JsVal} : StructEqList xs ys → StructEq (.arr xs) (.arr ys)
  | jsmap {es fs : List (JsVal × JsVal)} : StructEqPairs es fs →
      StructEq (.jsmap es) (.jsmap fs)
  | jsset {xs ys : List JsVal} : StructEqList xs ys → StructEq (.jsset xs) (.jsset ys)
  | obj {i j : Nat} {fs gs gs' : List (String × JsVal)} : (fs.map Prod.fst).Nodup →
      StructEqFields fs gs' → List.Perm gs' gs → StructEq (.obj i fs) (.obj j gs)

/-- Pointwise structural equality of value lists. -/
inductive StructEqList : List JsVal → List JsVal → Prop
  | nil : StructEqList [] []
  | cons {x y : JsVal} {xs ys : List JsVal} : StructEq x y → StructEqList xs ys →
      StructEqList (x :: xs) (y :: ys)

/-- Pointwise structural equality of map-entry lists. -/
inductive StructEqPairs : List (JsVal × JsVal) → List (JsVal × JsVal) → Prop
  | nil : StructEqPairs [] []
  | cons {k1 v1 k2 v2 : JsVal} {es fs : List (JsVal × JsVal)} :
      StructEq k1 k2 → StructEq v1 v2 → StructEqPairs es fs →
      StructEqPairs ((k1, v1) :: es) ((k2, v2) :: fs)

/-- Pointwise structural equality of object-entry lists (same keys in the
same order, structurally equal values). -/
inductive StructEqFields : List (String × JsVal) → List (String × JsVal) → Prop
  | nil : StructEqFields [] []
  | cons {k : String} {v w : JsVal} {fs gs : List (String × JsVal)} :
      StructEq v w → StructEqFields fs gs →
      StructEqFields ((k, v) :: fs) ((k, w) :: gs)
end

theorem hashTreeFields_eq_map (l : List (String × JsVal)) :
    hashTreeFields l = l.map (fun kv => (kv.1, hashTreeV kv.2)) := by
  induction l with
  | nil => rfl
  | cons kv fs ih =>
    cases kv
    simp [hashTreeFields, ih]

mutual
theorem structEq_hashTreeV : ∀ {a b : JsVal}, StructEq a b → hashTreeV a = hashTreeV b
  | _, _, .null => rfl
  | _, _, .undef => rfl
  | _, _, .num _ => rfl
  | _, _, .str _ => rfl
  | _, _, .bool _ => rfl
  | _, _, .fn _ => rfl
  | _, _, .date _ => rfl
  | _, _, .regexp _ => rfl
  | _, _, .arr h => by
      simp only [hashTreeV]
      rw [structEqList_hashTreeList h]
  | _, _, .jsmap h => by
      simp only [hashTreeV]
      rw [structEqPairs_hashTreePairs h]
  | _, _, .jsset h => by
      simp only [hashTreeV]
      rw [structEqList_hashTreeList h]
  | _, _, @StructEq.obj i j fs gs gs' hnd hf hperm => by
      simp only [hashTreeV]
      have h1 : hashTreeFields fs = hashTreeFields gs' := structEqFields_hashTreeFields hf
      have h2 : (hashTreeFields gs').Perm (hashTreeFields gs) := by
        rw [hashTreeFields_eq_map, hashTreeFields_eq_map]
        exact hperm.map _
      have h3 : ((hashTreeFields gs').map Prod.fst).Nodup := by
        rw [← h1, hashTreeFields_eq_map]
        have : ((fs.map (fun kv => (kv.1, hashTreeV kv.2))).map Prod.fst) =
            fs.map Prod.fst := by
          rw [List.map_map]
          rfl
        rw [this]
        exact hnd
      rw [h1]
      rw [show sortHFields (hashTreeFields gs') = sortHFields (hashTreeFields gs) from
        sortByKey_eq_of_perm h2 h3]

theorem structEqList_hashTreeList :
    ∀ {xs ys : List JsVal}, StructEqList xs ys → hashTreeList xs = hashTreeList ys
  | _, _, .nil => rfl
  | _, _, .cons h hs => by
      simp only [hashTreeList]
      rw [structEq_hashTreeV h, structEqList_hashTreeList hs]

theorem structEqPairs_hashTreePairs :
    ∀ {es fs : List (JsVal × JsVal)}, StructEqPairs es fs →
      hashTreePairs es = hashTreePairs fs
  | _, _, .nil => rfl
  | _, _, .cons hk hv hs => by
      simp only [hashTreePairs]
      rw [structEq_hashTreeV hk, structEq_hashTreeV hv, structEqPairs_hashTreePairs hs]

theorem structEqFields_hashTreeFields :
    ∀ {fs gs : List (String × JsVal)}, StructEqFields fs gs →
      hashTreeFields fs = hashTreeFields gs
  | _, _, .nil => rfl
  | _, _, .cons hv hfs => by
      simp only [hashTreeFields]
      rw [structEq_hashTreeV hv, structEqFields_hashTreeFields hfs]
end

theorem objIdsFields_eq_flatten (l : List (String × JsVal)) :
    objIdsFields l = (l.map (fun kv => objIds kv.2)).flatten := by
  induction l with
  | nil => rfl
  | cons kv fs ih =>
    cases kv
    simp [objIdsFields, ih]

theorem objIdsFields_perm {l₁ l₂ : List (String × JsVal)} (h : List.Perm l₁ l₂) :
    List.Perm (objIdsFields l₁) (objIdsFields l₂) := by
  rw [objIdsFields_eq_flatten, objIdsFields_eq_flatten]
  exact (h.map _).flatten

mutual
/-- Bridge: on an alias-free value (pairwise distinct object identities,
none of them already in `seen`), the stateful `hash` never takes the
`ref` branch — its output is the pure `hashTreeV` and the `seen` map
grows by exactly that value's identities. -/
theorem hashV_aliasFree :
    ∀ (v : JsVal) (st : HashSt),
    (objIds v).Nodup →
    (∀ k, k ∈ objIds v → k ∉ st.seen.map Prod.fst) →
    (hashV v st).1 = hashTreeV v ∧
    ∃ ex, (hashV v st).2.seen.map Prod.fst = st.seen.map Prod.fst ++ ex ∧
      List.Perm ex (objIds v)
  | .null, _, _, _ => by
      refine ⟨?_, [], ?_, ?_⟩ <;> simp [hashV, hashTreeV, objIds]
  | .undef, _, _, _ => by
      refine ⟨?_, [], ?_, ?_⟩ <;> simp [hashV, hashTreeV, objIds]
  | .num _, _, _, _ => by
      refine ⟨?_, [], ?_, ?_⟩ <;> simp [hashV, hashTreeV, objIds]
  | .str _, _, _, _ => by
      refine ⟨?_, [], ?_, ?_⟩ <;> simp [hashV, hashTreeV, objIds]
  | .bool _, _, _, _ => by
      refine ⟨?_, [], ?_, ?_⟩ <;> simp [hashV, hashTreeV, objIds]
  | .fn _, _, _, _ => by
      refine ⟨?_, [], ?_, ?_⟩ <;> simp [hashV, hashTreeV, objIds]
  | .date _, _, _, _ => by
      refine ⟨?_, [], ?_, ?_⟩ <;> simp [hashV, hashTreeV, objIds]
  | .regexp _, _, _, _ => by
      refine ⟨?_, [], ?_, ?_⟩ <;> simp [hashV, hashTreeV, objIds]
  | .arr xs, st, hnd, hdis => by
      obtain ⟨h1, ex, h2, h3⟩ := hashList_aliasFree xs st
        (by simpa [objIds] using hnd)
        (fun k hk => hdis k (by simpa [objIds] using hk))
      refine ⟨?_, ex, ?_, ?_⟩
      · simp [hashV, hashTreeV, h1]
      · simp [hashV, h2]
      · simpa [objIds] using h3
  | .jsmap es, st, hnd, hdis => by
      obtain ⟨h1, ex, h2, h3⟩ := hashPairs_aliasFree es st
        (by simpa [objIds] using hnd)
        (fun k hk => hdis k (by simpa [objIds] using hk))
      refine ⟨?_, ex, ?_, ?_⟩
      · simp [hashV, hashTreeV, h1]
      · simp [hashV, h2]
      · simpa [objIds] using h3
  | .jsset xs, st, hnd, hdis => by
      obtain ⟨h1, ex, h2, h3⟩ := hashList_aliasFree xs st
        (by simpa [objIds] using hnd)
        (fun k hk => hdis k (by simpa [objIds] using hk))
      refine ⟨?_, ex, ?_, ?_⟩
      · simp [hashV, hashTreeV, h1]
      · simp [hashV, h2]
      · simpa [objIds] using h3
  | .obj oid fs, st, hnd, hdis => by
      rw [objIds] at hnd hdis
      have hoid : oid ∉ st.seen.map Prod.fst := hdis oid (List.mem_cons_self _ _)
      have hfind : st.seen.find? (fun e => e.1 = oid) = none := by
        rw [List.find?_eq_none]
        intro x hx
        simp only [decide_eq_true_eq]
        intro hxe
        exact hoid (hxe ▸ List.mem_map_of_mem Prod.fst hx)
      have hndf : (objIdsFields fs).Nodup := (List.nodup_cons.mp hnd).2
      have hoidf : oid ∉ objIdsFields fs := (List.nodup_cons.mp hnd).1
      have hsp : List.Perm (objIdsFields (sortFields fs)) (objIdsFields fs) :=
        objIdsFields_perm (sortByKey_perm Prod.fst fs)
      obtain ⟨h1, ex, h2, h3⟩ := hashFieldsSorted_aliasFree (sortFields fs)
        ⟨st.seen ++ [(oid, st.counter)], st.counter + 1⟩
        (hsp.nodup_iff.mpr hndf)
        (by
          intro kk hk
          have hk' : kk ∈ objIdsFields fs := hsp.mem_iff.mp hk
          simp only [List.map_append, List.map_cons, List.map_nil, List.mem_append,
            List.mem_cons, List.not_mem_nil, or_false]
          rintro (h | rfl)
          · exact hdis kk (List.mem_cons_of_mem _ hk') h
          · exact hoidf hk')
      have hcomm : sortHFields (hashTreeFields fs) =
          (sortFields fs).map (fun kv => (kv.1, hashTreeV kv.2)) := by
        rw [hashTreeFields_eq_map]
        exact sortByKey_map Prod.fst Prod.fst
          (fun kv => (kv.1, hashTreeV kv.2)) (fun a => rfl) fs
      refine ⟨?_, oid :: ex, ?_, ?_⟩
      · simp only [hashV, hfind, hashTreeV]
        rw [h1, hcomm, List.map_map]
        rfl
      · simp only [hashV, hfind]
        rw [h2]
        simp
      · exact (h3.trans hsp).cons oid
termination_by v _ _ _ => sizeOf v
decreasing_by
  all_goals simp_wf
  all_goals first
    | omega
    | (rw [sortFields_sizeOf]; omega)

/-- Bridge for value lists, state threaded left to right. -/
theorem hashList_aliasFree :
    ∀ (xs : List JsVal) (st : HashSt),
    (objIdsList xs).Nodup →
    (∀ k, k ∈ objIdsList xs → k ∉ st.seen.map Prod.fst) →
    (hashList xs st).1 = hashTreeList xs ∧
    ∃ ex, (hashList xs st).2.seen.map Prod.fst = st.seen.map Prod.fst ++ ex ∧
      List.Perm ex (objIdsList xs)
  | [], st, _, _ => by
      refine ⟨?_, [], ?_, ?_⟩ <;> simp [hashList, hashTreeList, objIdsList]
  | x :: xs, st, hnd, hdis => by
      rw [objIdsList] at hnd hdis
      obtain ⟨hnd1, hnd2, hdisj⟩ := List.nodup_append.mp hnd
      obtain ⟨hx1, ex1, hx2, hx3⟩ := hashV_aliasFree x st hnd1
        (fun k hk => hdis k (List.mem_append_left _ hk))
      obtain ⟨hl1, ex2, hl2, hl3⟩ := hashList_aliasFree xs (hashV x st).2 hnd2
        (by
          intro k hk
          rw [hx2]
          intro hmem
          rcases List.mem_append.mp hmem with h | h
          · exact hdis k (List.mem_append_right _ hk) h
          · exact hdisj (hx3.mem_iff.mp h) hk)
      refine ⟨?_, ex1 ++ ex2, ?_, ?_⟩
      · simp [hashList, hashTreeList, hx1, hl1]
      · simp [hashList, hl2, hx2]
      · exact hx3.append hl3
termination_by xs _ _ _ => sizeOf xs
decreasing_by
  all_goals simp_wf
  all_goals omega

/-- Bridge for map-entry lists, state threaded key then value. -/
theorem hashPairs_aliasFree :
    ∀ (es : List (JsVal × JsVal)) (st : HashSt),
    (objIdsPairs es).Nodup →
    (∀ k, k ∈ objIdsPairs es → k ∉ st.seen.map Prod.fst) →
    (hashPairs es st).1 = hashTreePairs es ∧
    ∃ ex, (hashPairs es st).2.seen.map Prod.fst = st.seen.map Prod.fst ++ ex ∧
      List.Perm ex (objIdsPairs es)
  | [], st, _, _ => by
      refine ⟨?_, [], ?_, ?_⟩ <;> simp [hashPairs, hashTreePairs, objIdsPairs]
  | (a, b) :: es, st, hnd, hdis => by
      rw [objIdsPairs] at hnd hdis
      obtain ⟨hnd12, hnd3, hdisj3⟩ := List.nodup_append.mp hnd
      obtain ⟨hnd1, hnd2, hdisj12⟩ := List.nodup_append.mp hnd12
      obtain ⟨ha1, ex1, ha2, ha3⟩ := hashV_aliasFree a st hnd1
        (fun k hk => hdis k (List.mem_append_left _ (List.mem_append_left _ hk)))
      obtain ⟨hb1, ex2, hb2, hb3⟩ := hashV_aliasFree b (hashV a st).2 hnd2
        (by
          intro k hk
          rw [ha2]
          intro hmem
          rcases List.mem_append.mp hmem with h | h
          · exact hdis k (List.mem_append_left _ (List.mem_append_right _ hk)) h
          · exact hdisj12 (ha3.mem_iff.mp h) hk)
      obtain ⟨hs1, ex3, hs2, hs3⟩ := hashPairs_aliasFree es (hashV b (hashV a st).2).2 hnd3
        (by
          intro k hk
          rw [hb2, ha2]
          intro hmem
          rcases List.mem_append.mp hmem with h | h
          · rcases List.mem_append.mp h with h' | h'
            · exact hdis k (List.mem_append_right _ hk) h'
            · exact hdisj3 (List.mem_append_left _ (ha3.mem_iff.mp h')) hk
          · exact hdisj3 (List.mem_append_right _ (hb3.mem_iff.mp h)) hk)
      refine ⟨?_, (ex1 ++ ex2) ++ ex3, ?_, ?_⟩
      · simp [hashPairs, hashTreePairs, ha1, hb1, hs1]
      · simp [hashPairs, hs2, hb2, ha2]
      · exact (ha3.append hb3).append hs3
termination_by es _ _ _ => sizeOf es
decreasing_by
  all_goals simp_wf
  all_goals omega

/-- Bridge for already key-sorted object entries, state threaded left to
right over the values. -/
theorem hashFieldsSorted_aliasFree :
    ∀ (fs : List (String × JsVal)) (st : HashSt),
    (objIdsFields fs).Nodup →
    (∀ k, k ∈ objIdsFields fs → k ∉ st.seen.map Prod.fst) →
    (hashFieldsSorted fs st).1 =
      fs.map (fun kv => HVal.arr [.str kv.1, hashTreeV kv.2]) ∧
    ∃ ex, (hashFieldsSorted fs st).2.seen.map Prod.fst =
      st.seen.map Prod.fst ++ ex ∧ List.Perm ex (objIdsFields fs)
  | [], st, _, _ => by
      refine ⟨?_, [], ?_, ?_⟩ <;> simp [hashFieldsSorted, objIdsFields]
  | (k, v) :: fs, st, hnd, hdis => by
      rw [objIdsFields] at hnd hdis
      obtain ⟨hnd1, hnd2, hdisj⟩ := List.nodup_append.mp hnd
      obtain ⟨hv1, ex1, hv2, hv3⟩ := hashV_aliasFree v st hnd1
        (fun kk hk => hdis kk (List.mem_append_left _ hk))
      obtain ⟨hl1, ex2, hl2, hl3⟩ := hashFieldsSorted_aliasFree fs (hashV v st).2 hnd2
        (by
          intro kk hk
          rw [hv2]
          intro hmem
          rcases List.mem_append.mp hmem with h | h
          · exact hdis kk (List.mem_append_right _ hk) h
          · exact hdisj (hv3.mem_iff.mp h) hk)
      refine ⟨?_, ex1 ++ ex2, ?_, ?_⟩
      · simp [hashFieldsSorted, hv1, hl1]
      · simp [hashFieldsSorted, hl2, hv2]
      · exact hv3.append hl3
termination_by fs _ _ _ => sizeOf fs
decreasing_by
  all_goals simp_wf
  all_goals omega
end

/-- Argument list passing the same `\x7b a: 1 \x7d` object reference twice
(both subtrees carry identity `0`). -/
def aliasedArgs : List JsVal :=
  [JsVal.obj 0 [("a", JsVal.num 1)], JsVal.obj 0 [("a", JsVal.num 1)]]

/-- Argument list passing two distinct objects with the same single
entry. -/
def unaliasedArgs : List JsVal :=
  [JsVal.obj 0 [("a", JsVal.num 1)], JsVal.obj 1 [("a", JsVal.num 1)]]

/-- C10 counterexample: `[o, o]` (one object reference twice) and
`[\x7b a: 1 \x7d, \x7b a: 1 \x7d]` are structurally equal argument lists, yet the
`seen` guard hashes the repeated reference to a `ref` entry, the key
strings differ, and the second call within `ttlMs` misses the cache and
invokes the wrapped method again — refuting the claim that structural
equality alone guarantees equal hashes and a cache hit. -/
theorem hashArgs_alias_counterexample :
    StructEqList aliasedArgs unaliasedArgs ∧
    hashArgs aliasedArgs ≠ hashArgs unaliasedArgs ∧
    (cacheCall 100 (fun _ => (7 : Nat))
        (cacheCall 100 (fun _ => (7 : Nat)) [] 0 aliasedArgs).2.1
        50 unaliasedArgs).2.2 = true := by
  refine ⟨?_, ?_, ?_⟩
  · exact StructEqList.cons
      (StructEq.obj (by decide)
        (StructEqFields.cons (StructEq.num 1) StructEqFields.nil)
        (List.Perm.refl _))
      (StructEqList.cons
        (StructEq.obj (by decide)
          (StructEqFields.cons (StructEq.num 1) StructEqFields.nil)
          (List.Perm.refl _))
        StructEqList.nil)
  · simp only [aliasedArgs, unaliasedArgs, hashArgs, hashList, hashV,
      hashFieldsSorted, sortFields, sortByKey, insertByKey, List.foldl,
      List.find?]
    decide
  · simp only [aliasedArgs, unaliasedArgs, cacheCall, cacheGet, cacheSet,
      hashArgs, hashList, hashV, hashFieldsSorted, sortFields, sortByKey,
      insertByKey, List.foldl, List.find?, List.any]
    decide

/-- C10 (amended): on alias-free calls — no plain-object reference
occurring twice across the arguments — `hashArgs` is insertion-order
independent on plain objects: structurally equal argument lists hash to
the same key string, so a second call within `ttlMs` returns the cached
value without invoking the wrapped method again. -/
theorem structEq_cache_hit {V : Type} (ttlMs : Nat) (method : List JsVal → V)
    (args1 args2 : List JsVal) (t0 t1 : Nat)
    (hse : StructEqList args1 args2)
    (hal1 : (objIdsList args1).Nodup) (hal2 : (objIdsList args2).Nodup)
    (ht : t1 < t0 + ttlMs) :
    hashArgs args1 = hashArgs args2 ∧
    (cacheCall ttlMs method [] t0 args1).2.2 = true ∧
    cacheCall ttlMs method (cacheCall ttlMs method [] t0 args1).2.1 t1 args2 =
      (method args1, (cacheCall ttlMs method [] t0 args1).2.1, false) := by
  have hb1 := hashList_aliasFree args1 ⟨[], 0⟩ hal1 (by intro k _; simp)
  have hb2 := hashList_aliasFree args2 ⟨[], 0⟩ hal2 (by intro k _; simp)
  have hh : hashArgs args1 = hashArgs args2 := by
    unfold hashArgs
    rw [hb1.1, hb2.1, structEqList_hashTreeList hse]
  have hfirst : cacheCall ttlMs method [] t0 args1 =
      (method args1, [(hashArgs args1, ⟨method args1, t0 + ttlMs⟩)], true) := by
    simp [cacheCall, cacheGet, cacheSet]
  refine ⟨hh, ?_, ?_⟩
  · rw [hfirst]
  · rw [hfirst]
    unfold cacheCall
    rw [← hh]
    simp [cacheGet, List.find?, ht]

/-- Closed witness for `structEq_cache_hit`: the same two-field object
with its properties inserted in either order (and no aliasing) yields
the same hash key and a cache hit on the second call. -/
theorem structEq_cache_hit_witness :
    hashArgs [JsVal.obj 0 [("a", JsVal.num 1), ("b", JsVal.str "x")]] =
      hashArgs [JsVal.obj 5 [("b", JsVal.str "x"), ("a", JsVal.num 1)]] ∧
    (cacheCall 100 (fun _ => (7 : Nat)) [] 0
        [JsVal.obj 0 [("a", JsVal.num 1), ("b", JsVal.str "x")]]).2.2 = true ∧
    cacheCall 100 (fun _ => (7 : Nat))
        (cacheCall 100 (fun _ => (7 : Nat)) [] 0
          [JsVal.obj 0 [("a", JsVal.num 1), ("b", JsVal.str "x")]]).2.1 50
        [JsVal.obj 5 [("b", JsVal.str "x"), ("a", JsVal.num 1)]] =
      ((7 : Nat),
        (cacheCall 100 (fun _ => (7 : Nat)) [] 0
          [JsVal.obj 0 [("a", JsVal.num 1), ("b", JsVal.str "x")]]).2.1, false) :=
  structEq_cache_hit 100 (fun _ => (7 : Nat))
    [JsVal.obj 0 [("a", JsVal.num 1), ("b", JsVal.str "x")]]
    [JsVal.obj 5 [("b", JsVal.str "x"), ("a", JsVal.num 1)]] 0 50
    (StructEqList.cons
      (StructEq.obj (by decide)
        (StructEqFields.cons (StructEq.num 1)
          (StructEqFields.cons (StructEq.str "x") StructEqFields.nil))
        (List.Perm.swap _ _ []))
      StructEqList.nil)
    (by decide) (by decide) (by decide)

end NodeCommon
